import Mathlib

/-!
Verification of the data pipeline in `workshop.ipynb`: the linear rescaling
function `rescale_to_range` and the group-by aggregation built from
`get_stats`.  Numeric cell values are modelled as rationals; a missing or
undefined value (pandas `NaN`) is modelled as `none : Option ℚ`.  The
pandas element-wise arithmetic of `rescale_to_range` produces a non-finite
sentinel (`NaN`) on every element whenever the observed range is
degenerate (the divisor `x.max() - x.min()` is zero), which the embedding
renders as `none`.
-/

namespace Workshop

/-- Minimum of a numeric column, as pandas `Series.min` on a column with no
missing values: the fold of `min` over the elements.  The value on the
empty list is irrelevant to every statement below. -/
def listMin : List ℚ → ℚ
  | [] => 0
  | h :: t => t.foldl min h

/-- Maximum of a numeric column, as pandas `Series.max` on a column with no
missing values. -/
def listMax : List ℚ → ℚ
  | [] => 0
  | h :: t => t.foldl max h

/-- Embedding of `rescale_to_range(a, b, x)` from `workshop.ipynb`:

    return((((b - a) * (x - x.min())) / (x.max() - x.min())) + a)

The pandas expression is evaluated element-wise over the column `x`.  When
`x.max() - x.min()` is zero the division produces the non-finite sentinel
`NaN` on every element (the numerator is also zero there), rendered as
`none`; otherwise the element is the finite rational given by the formula. -/
def rescale_to_range (a b : ℚ) (x : List ℚ) : List (Option ℚ) :=
  x.map fun xi =>
    if listMax x - listMin x = 0 then none
    else some ((b - a) * (xi - listMin x) / (listMax x - listMin x) + a)

/-! ### Group-by aggregation

The notebook computes `dataset['Overall'].groupby(dataset['Country'])` and
then `.apply(get_stats).unstack()`.  A table for this purpose is a list of
rows, each row pairing the group key (the `Country` cell, possibly
missing) with the value cell (the `Overall` cell, possibly missing).
Pandas `groupby` groups the rows by the distinct observed non-null keys;
a row whose key is missing (`NaN`) is excluded from every group. -/

/-- The non-null values of a value column, in row order: pandas drops `NaN`
entries when computing `min`, `max`, `count` and `mean` of a group. -/
def validValues (g : List (Option ℚ)) : List ℚ := g.filterMap id

/-- The summary record produced by `get_stats` for one group. -/
structure Stats where
  min : Option ℚ
  max : Option ℚ
  count : ℕ
  mean : Option ℚ
deriving DecidableEq

/-- Embedding of `get_stats(group)` from `workshop.ipynb`:

    return {'min': group.min(), 'max': group.max(),
            'count': group.count(), 'mean': group.mean()}

Pandas `Series.min`/`Series.max`/`Series.mean` skip missing values and
return the `NaN` sentinel (here `none`) when no non-null value exists;
`Series.count` returns the number of non-null observations. -/
def get_stats (g : List (Option ℚ)) : Stats :=
  { min := if validValues g = [] then none else some (listMin (validValues g))
  , max := if validValues g = [] then none else some (listMax (validValues g))
  , count := (validValues g).length
  , mean := if validValues g = [] then none
            else some ((validValues g).sum / ((validValues g).length : ℚ)) }

/-- The distinct non-null group keys, in order of first appearance, as
produced by the pandas `groupby` on the key column: a missing (`NaN`) key
never forms a group. -/
def groupKeys {K : Type} [DecidableEq K] (t : List (Option K × Option ℚ)) :
    List K :=
  (t.filterMap Prod.fst).dedup

/-- The rows of `t` belonging to the group with key `k`.  A row whose key
is missing satisfies no group's membership test, matching the pandas
`groupby` exclusion of `NaN` keys. -/
def groupRows {K : Type} [DecidableEq K] (t : List (Option K × Option ℚ))
    (k : K) : List (Option K × Option ℚ) :=
  t.filter fun r => decide (r.1 = some k)

/-- The value column restricted to the group with key `k`. -/
def groupValues {K : Type} [DecidableEq K] (t : List (Option K × Option ℚ))
    (k : K) : List (Option ℚ) :=
  (groupRows t k).map Prod.snd

/-- Embedding of `dataset_country.apply(get_stats)`: one summary row per
distinct non-null group key. -/
def aggregateStats {K : Type} [DecidableEq K] (t : List (Option K × Option ℚ)) :
    List (K × Stats) :=
  (groupKeys t).map fun k => (k, get_stats (groupValues t k))

/-! ### Tables with named columns, and the aggregation entry point

The notebook reaches the aggregation through column indexing on the loaded
data frame (`dataset['Overall']`, `dataset['Country']`).  The lookup and
type checks live in the external tabular library, not in the notebook. -/

/-- A cell of a loaded table: a numeric value, a text value, or missing. -/
inductive Cell where
  | num (q : ℚ)
  | str (s : String)
  | null
deriving DecidableEq

/-- A loaded table: named columns of cells. -/
abbrev Table := List (String × List Cell)

/-- Column lookup by name: the first column carrying the requested name,
if any. -/
def findCol (t : Table) (c : String) : Option (List Cell) :=
  (t.find? fun p => decide (p.1 = c)).map Prod.snd

/-- A cell is numeric when it is not text; missing cells live inside
numeric columns. -/
def isNumericCell : Cell → Bool
  | .str _ => false
  | _ => true

/-- A column is numeric when no cell of it holds text. -/
def isNumericCol (col : List Cell) : Bool := col.all isNumericCell

/-- The numeric view of a cell: a rational for a numeric cell, the missing
sentinel otherwise. -/
def cellValue : Cell → Option ℚ
  | .num q => some q
  | _ => none

/-- The group-key view of a cell: a missing cell yields no key (pandas
`groupby` excludes `NaN` keys); every other cell is its own key. -/
def cellKey : Cell → Option Cell
  | .null => none
  | c => some c

/-- The error taxonomy of the spec for the aggregation step. -/
inductive AggError where
  | MissingColumnError (c : String)
  | TypeMismatchError (c : String)
deriving DecidableEq

/-- Modelled from the spec: the column-existence and numeric-type validation
of `aggregate(table, groupByColumn, valueColumn)` is performed by the
external tabular library (absent from the source, which only calls it);
per spec sections 4.2 and 7 a missing column fails with
`MissingColumnError`, a non-numeric value column with `TypeMismatchError`,
and otherwise the group-by summary is computed.  The summary computation
itself is the source's `groupby` / `get_stats` pipeline. -/
def aggregate (t : Table) (groupByColumn valueColumn : String) :
    Except AggError (List (Cell × Stats)) :=
  match findCol t groupByColumn with
  | none => Except.error (AggError.MissingColumnError groupByColumn)
  | some gcol =>
    match findCol t valueColumn with
    | none => Except.error (AggError.MissingColumnError valueColumn)
    | some vcol =>
      if isNumericCol vcol then
        Except.ok (aggregateStats ((gcol.map cellKey).zip (vcol.map cellValue)))
      else
        Except.error (AggError.TypeMismatchError valueColumn)

/-! ### Fold lemmas for `listMin` / `listMax` -/

theorem foldl_min_le_init (t : List ℚ) (h : ℚ) : t.foldl min h ≤ h := by
  induction t generalizing h with
  | nil => exact le_refl h
  | cons a t ih =>
      calc List.foldl min (min h a) t ≤ min h a := ih (min h a)
        _ ≤ h := min_le_left h a

theorem foldl_min_le_of_mem {t : List ℚ} {y : ℚ} (h : ℚ) (hy : y ∈ t) :
    t.foldl min h ≤ y := by
  induction t generalizing h with
  | nil => cases hy
  | cons a t ih =>
      rcases List.mem_cons.mp hy with rfl | hy
      · calc List.foldl min (min h y) t ≤ min h y := foldl_min_le_init t (min h y)
          _ ≤ y := min_le_right h y
      · exact ih (min h a) hy

theorem foldl_min_mem (t : List ℚ) (h : ℚ) : t.foldl min h ∈ h :: t := by
  induction t generalizing h with
  | nil => exact List.mem_singleton.mpr rfl
  | cons a t ih =>
      show List.foldl min (min h a) t ∈ h :: a :: t
      rcases min_choice h a with hc | hc <;> rw [hc]
      · rcases List.mem_cons.mp (ih h) with h1 | h1
        · rw [h1]; exact List.mem_cons_self _ _
        · exact List.mem_cons_of_mem _ (List.mem_cons_of_mem _ h1)
      · rcases List.mem_cons.mp (ih a) with h1 | h1
        · rw [h1]; exact List.mem_cons_of_mem _ (List.mem_cons_self _ _)
        · exact List.mem_cons_of_mem _ (List.mem_cons_of_mem _ h1)

theorem le_foldl_max_init (t : List ℚ) (h : ℚ) : h ≤ t.foldl max h := by
  induction t generalizing h with
  | nil => exact le_refl h
  | cons a t ih =>
      calc h ≤ max h a := le_max_left h a
        _ ≤ List.foldl max (max h a) t := ih (max h a)

theorem le_foldl_max_of_mem {t : List ℚ} {y : ℚ} (h : ℚ) (hy : y ∈ t) :
    y ≤ t.foldl max h := by
  induction t generalizing h with
  | nil => cases hy
  | cons a t ih =>
      rcases List.mem_cons.mp hy with rfl | hy
      · calc y ≤ max h y := le_max_right h y
          _ ≤ List.foldl max (max h y) t := le_foldl_max_init t (max h y)
      · exact ih (max h a) hy

theorem foldl_max_mem (t : List ℚ) (h : ℚ) : t.foldl max h ∈ h :: t := by
  induction t generalizing h with
  | nil => exact List.mem_singleton.mpr rfl
  | cons a t ih =>
      show List.foldl max (max h a) t ∈ h :: a :: t
      rcases max_choice h a with hc | hc <;> rw [hc]
      · rcases List.mem_cons.mp (ih h) with h1 | h1
        · rw [h1]; exact List.mem_cons_self _ _
        · exact List.mem_cons_of_mem _ (List.mem_cons_of_mem _ h1)
      · rcases List.mem_cons.mp (ih a) with h1 | h1
        · rw [h1]; exact List.mem_cons_of_mem _ (List.mem_cons_self _ _)
        · exact List.mem_cons_of_mem _ (List.mem_cons_of_mem _ h1)

theorem listMin_le_of_mem {x : List ℚ} {y : ℚ} (hy : y ∈ x) : listMin x ≤ y := by
  cases x with
  | nil => cases hy
  | cons h t =>
      rcases List.mem_cons.mp hy with rfl | hy
      · exact foldl_min_le_init t y
      · exact foldl_min_le_of_mem h hy

theorem le_listMax_of_mem {x : List ℚ} {y : ℚ} (hy : y ∈ x) : y ≤ listMax x := by
  cases x with
  | nil => cases hy
  | cons h t =>
      rcases List.mem_cons.mp hy with rfl | hy
      · exact le_foldl_max_init t y
      · exact le_foldl_max_of_mem h hy

theorem listMin_mem {x : List ℚ} (hx : x ≠ []) : listMin x ∈ x := by
  cases x with
  | nil => exact absurd rfl hx
  | cons h t => exact foldl_min_mem t h

theorem listMax_mem {x : List ℚ} (hx : x ≠ []) : listMax x ∈ x := by
  cases x with
  | nil => exact absurd rfl hx
  | cons h t => exact foldl_max_mem t h

theorem listMin_lt_listMax {x : List ℚ} {u v : ℚ}
    (hu : u ∈ x) (hv : v ∈ x) (huv : u ≠ v) : listMin x < listMax x := by
  rcases lt_or_gt_of_ne huv with h | h
  · exact lt_of_le_of_lt (listMin_le_of_mem hu) (lt_of_lt_of_le h (le_listMax_of_mem hv))
  · exact lt_of_le_of_lt (listMin_le_of_mem hv) (lt_of_lt_of_le h (le_listMax_of_mem hu))

/-! ### Counting lemmas for the partition property -/

theorem sum_indicator_eq_one {K : Type} [DecidableEq K] (ks : List K) (a : K)
    (hnd : ks.Nodup) (ha : a ∈ ks) :
    (ks.map fun k => if a = k then 1 else 0).sum = 1 := by
  induction ks with
  | nil => cases ha
  | cons b ks ih =>
      rcases List.mem_cons.mp ha with rfl | ha
      · have hnotin : a ∉ ks := (List.nodup_cons.mp hnd).1
        have hz : (ks.map fun k => if a = k then 1 else 0).sum = 0 := by
          apply List.sum_eq_zero
          intro x hx
          rcases List.mem_map.mp hx with ⟨k, hk, rfl⟩
          have : a ≠ k := fun h => hnotin (h ▸ hk)
          simp [this]
        simp [hz]
      · have hne : a ≠ b := fun h => (List.nodup_cons.mp hnd).1 (h ▸ ha)
        simp [hne, ih (List.nodup_cons.mp hnd).2 ha]

theorem sum_countP_eq_length_of_isSome {α K : Type} [DecidableEq K]
    (l : List α) (f : α → Option K) (ks : List K)
    (hnd : ks.Nodup) (hcov : ∀ a ∈ l, ∀ k : K, f a = some k → k ∈ ks) :
    (ks.map fun k => (l.countP fun a => decide (f a = some k))).sum
      = (l.filter fun a => (f a).isSome).length := by
  induction l with
  | nil => simp
  | cons a l ih =>
      have hcov' : ∀ x ∈ l, ∀ k : K, f x = some k → k ∈ ks :=
        fun x hx => hcov x (List.mem_cons_of_mem a hx)
      have hstep : ∀ k : K, (List.countP (fun x => decide (f x = some k)) (a :: l))
          = (List.countP (fun x => decide (f x = some k)) l)
            + (if f a = some k then 1 else 0) := by
        intro k
        by_cases h : f a = some k
        · rw [List.countP_cons_of_pos _ _ (by simpa using h)]
          simp [h]
        · rw [List.countP_cons_of_neg _ _ (by simpa using h)]
          simp [h]
      have hsplit : (ks.map fun k =>
            (List.countP (fun x => decide (f x = some k)) (a :: l))).sum
          = (ks.map fun k => (List.countP (fun x => decide (f x = some k)) l)).sum
            + (ks.map fun k => if f a = some k then 1 else 0).sum := by
        calc (ks.map fun k =>
              (List.countP (fun x => decide (f x = some k)) (a :: l))).sum
            = (ks.map fun k => (List.countP (fun x => decide (f x = some k)) l)
                + (if f a = some k then 1 else 0)).sum := by
              congr 1
              exact List.map_congr_left fun k _ => hstep k
          _ = (ks.map fun k => (List.countP (fun x => decide (f x = some k)) l)).sum
                + (ks.map fun k => if f a = some k then 1 else 0).sum := by
              rw [← List.sum_map_add]
      rcases hfa : f a with _ | k0
      · have hz : (ks.map fun k => if f a = some k then 1 else 0).sum = 0 := by
          apply List.sum_eq_zero
          intro x hx
          rcases List.mem_map.mp hx with ⟨k, hk, rfl⟩
          simp [hfa]
        rw [hsplit, hz, ih hcov']
        simp [List.filter_cons, hfa]
      · have hone : (ks.map fun k => if f a = some k then 1 else 0).sum = 1 := by
          have hmem : k0 ∈ ks := hcov a (List.mem_cons_self a l) k0 hfa
          have hcongr : (ks.map fun k => if f a = some k then 1 else 0)
              = ks.map fun k => if k0 = k then 1 else 0 := by
            apply List.map_congr_left
            intro k _
            by_cases h : k0 = k
            · simp [hfa, h]
            · have : f a ≠ some k := by
                rw [hfa]
                exact fun hc => h (Option.some_inj.mp hc)
              simp [this, h]
          rw [hcongr]
          exact sum_indicator_eq_one ks k0 hnd hmem
        rw [hsplit, hone, ih hcov']
        simp [List.filter_cons, hfa]

/-! ### Sum bounds for the mean -/

theorem mul_length_le_sum (l : List ℚ) (m : ℚ) (h : ∀ y ∈ l, m ≤ y) :
    m * l.length ≤ l.sum := by
  induction l with
  | nil => simp
  | cons a t ih =>
      have ha : m ≤ a := h a (List.mem_cons_self a t)
      have ht : m * t.length ≤ t.sum := ih fun y hy => h y (List.mem_cons_of_mem a hy)
      simp only [List.sum_cons, List.length_cons]
      push_cast
      linarith

theorem sum_le_mul_length (l : List ℚ) (M : ℚ) (h : ∀ y ∈ l, y ≤ M) :
    l.sum ≤ M * l.length := by
  induction l with
  | nil => simp
  | cons a t ih =>
      have ha : a ≤ M := h a (List.mem_cons_self a t)
      have ht : t.sum ≤ M * t.length := ih fun y hy => h y (List.mem_cons_of_mem a hy)
      simp only [List.sum_cons, List.length_cons]
      push_cast
      linarith

/-! ### The rescaling claims -/

/-- C1: for a sequence whose observed minimum and maximum differ,
`rescale_to_range` returns a sequence of the same length whose `i`-th
element is `newMin + (newMax - newMin) * (values[i] - oldMin) /
(oldMax - oldMin)`. -/
theorem rescale_matches_spec_formula (a b : ℚ) (x : List ℚ)
    (hne : listMin x ≠ listMax x) :
    (rescale_to_range a b x).length = x.length ∧
    ∀ (i : ℕ) (hi : i < x.length) (hi2 : i < (rescale_to_range a b x).length),
      (rescale_to_range a b x)[i] =
        some (a + (b - a) * (x[i] - listMin x) / (listMax x - listMin x)) := by
  have hd : listMax x - listMin x ≠ 0 := sub_ne_zero.mpr (Ne.symm hne)
  constructor
  · simp [rescale_to_range]
  · intro i hi hi2
    simp only [rescale_to_range, List.getElem_map, if_neg hd]
    exact congrArg some (add_comm _ _)

/-- Witness for C1: the bounds hold at `values = [5, 10, 15]`, `newMin = 0`,
`newMax = 100`. -/
theorem rescale_matches_spec_formula_witness :
    listMin [(5 : ℚ), 10, 15] ≠ listMax [(5 : ℚ), 10, 15] ∧
    (rescale_to_range 0 100 [(5 : ℚ), 10, 15]).length = ([(5 : ℚ), 10, 15]).length :=
  ⟨by decide, (rescale_matches_spec_formula 0 100 [(5 : ℚ), 10, 15] (by decide)).1⟩

/-- C2: with at least two distinct input values and `newMin ≤ newMax`, every
output lies in `[newMin, newMax]`, the observed minimum maps exactly to
`newMin`, the observed maximum maps exactly to `newMax`, and in particular
`rescale_to_range 0 100 [5, 10, 15] = [0, 50, 100]`. -/
theorem rescale_bounds_and_endpoints (a b : ℚ) (x : List ℚ)
    (hab : a ≤ b) (hx : ∃ u ∈ x, ∃ v ∈ x, u ≠ v) :
    (∀ (i : ℕ) (hi : i < x.length) (hi2 : i < (rescale_to_range a b x).length),
       ∃ y : ℚ, (rescale_to_range a b x)[i] = some y ∧ a ≤ y ∧ y ≤ b) ∧
    (∀ (i : ℕ) (hi : i < x.length) (hi2 : i < (rescale_to_range a b x).length),
       x[i] = listMin x → (rescale_to_range a b x)[i] = some a) ∧
    (∀ (i : ℕ) (hi : i < x.length) (hi2 : i < (rescale_to_range a b x).length),
       x[i] = listMax x → (rescale_to_range a b x)[i] = some b) ∧
    rescale_to_range 0 100 [(5 : ℚ), 10, 15] = [some 0, some 50, some 100] := by
  obtain ⟨u, hu, v, hv, huv⟩ := hx
  have hlt : listMin x < listMax x := listMin_lt_listMax hu hv huv
  have hdpos : 0 < listMax x - listMin x := by linarith
  have hd : listMax x - listMin x ≠ 0 := ne_of_gt hdpos
  refine ⟨?_, ?_, ?_, ?_⟩
  · intro i hi hi2
    have hmem : x[i] ∈ x := List.getElem_mem hi
    have h1 : listMin x ≤ x[i] := listMin_le_of_mem hmem
    have h2 : x[i] ≤ listMax x := le_listMax_of_mem hmem
    refine ⟨(b - a) * (x[i] - listMin x) / (listMax x - listMin x) + a, ?_, ?_, ?_⟩
    · simp only [rescale_to_range, List.getElem_map, if_neg hd]
    · have hnum : 0 ≤ (b - a) * (x[i] - listMin x) :=
        mul_nonneg (by linarith) (by linarith)
      have := div_nonneg hnum (le_of_lt hdpos)
      linarith
    · have hnum : (b - a) * (x[i] - listMin x) ≤ (b - a) * (listMax x - listMin x) :=
        mul_le_mul_of_nonneg_left (by linarith) (by linarith)
      have hstep : (b - a) * (x[i] - listMin x) / (listMax x - listMin x) ≤ b - a := by
        rw [div_le_iff₀ hdpos]
        calc (b - a) * (x[i] - listMin x) ≤ (b - a) * (listMax x - listMin x) := hnum
          _ = (b - a) * (listMax x - listMin x) := rfl
      linarith
  · intro i hi hi2 hmin
    simp only [rescale_to_range, List.getElem_map, if_neg hd, hmin]
    simp
  · intro i hi hi2 hmax
    simp only [rescale_to_range, List.getElem_map, if_neg hd, hmax]
    rw [mul_div_assoc, div_self hd, mul_one]
    exact congrArg some (by ring)
  · have h5 : listMin [(5 : ℚ), 10, 15] = 5 := by decide
    have h15 : listMax [(5 : ℚ), 10, 15] = 15 := by decide
    unfold rescale_to_range
    simp only [h5, h15]
    norm_num

/-- Witness for C2: the concrete scenario extracted at `[5, 10, 15]`,
`newMin = 0`, `newMax = 100`. -/
theorem rescale_bounds_and_endpoints_witness :
    rescale_to_range 0 100 [(5 : ℚ), 10, 15] = [some 0, some 50, some 100] :=
  (rescale_bounds_and_endpoints 0 100 [(5 : ℚ), 10, 15] (by norm_num)
    ⟨5, by decide, 10, by decide, by decide⟩).2.2.2

/-- C3: with at least two distinct input values and `newMin < newMax`,
rescaling is strictly order-preserving: `values[i] < values[j]` implies
the `i`-th output is strictly below the `j`-th. -/
theorem rescale_strict_mono (a b : ℚ) (x : List ℚ)
    (hab : a < b) (hx : ∃ u ∈ x, ∃ v ∈ x, u ≠ v) :
    ∀ (i j : ℕ) (hi : i < x.length) (hj : j < x.length)
      (hi2 : i < (rescale_to_range a b x).length)
      (hj2 : j < (rescale_to_range a b x).length),
      x[i] < x[j] →
      ∃ yi yj : ℚ, (rescale_to_range a b x)[i] = some yi ∧
        (rescale_to_range a b x)[j] = some yj ∧ yi < yj := by
  obtain ⟨u, hu, v, hv, huv⟩ := hx
  have hlt : listMin x < listMax x := listMin_lt_listMax hu hv huv
  have hdpos : 0 < listMax x - listMin x := by linarith
  have hd : listMax x - listMin x ≠ 0 := ne_of_gt hdpos
  intro i j hi hj hi2 hj2 hij
  refine ⟨(b - a) * (x[i] - listMin x) / (listMax x - listMin x) + a,
          (b - a) * (x[j] - listMin x) / (listMax x - listMin x) + a, ?_, ?_, ?_⟩
  · simp only [rescale_to_range, List.getElem_map, if_neg hd]
  · simp only [rescale_to_range, List.getElem_map, if_neg hd]
  · have h1 : (b - a) * (x[i] - listMin x) < (b - a) * (x[j] - listMin x) :=
      mul_lt_mul_of_pos_left (by linarith) (by linarith)
    have h2 : (b - a) * (x[i] - listMin x) / (listMax x - listMin x)
        < (b - a) * (x[j] - listMin x) / (listMax x - listMin x) := by
      rw [div_lt_div_iff₀ hdpos hdpos]
      exact mul_lt_mul_of_pos_right h1 hdpos
    linarith

/-- Witness for C3: at `[5, 10, 15]` with `newMin = 0 < newMax = 100` and
indices `0 < 2` in value. -/
theorem rescale_strict_mono_witness :
    ∃ yi yj : ℚ,
      (rescale_to_range 0 100 [(5 : ℚ), 10, 15]).get ⟨0, by decide⟩ = some yi ∧
      (rescale_to_range 0 100 [(5 : ℚ), 10, 15]).get ⟨2, by decide⟩ = some yj ∧
      yi < yj := by
  have h := rescale_strict_mono 0 100 [(5 : ℚ), 10, 15] (by norm_num)
    ⟨5, by decide, 10, by decide, by decide⟩ 0 2 (by decide) (by decide)
    (by decide) (by decide) (by decide)
  simpa using h

/-- C4 counterexample: on the constant sequence `[7, 7, 7]` the code does not
fail; it returns a sequence — every element the `NaN` sentinel (the divisor
`x.max() - x.min()` is zero). -/
theorem rescale_constant_counterexample :
    rescale_to_range 0 100 [(7 : ℚ), 7, 7] = [none, none, none] := by
  have hmax : listMax [(7 : ℚ), 7, 7] = 7 := by decide
  have hmin : listMin [(7 : ℚ), 7, 7] = 7 := by decide
  have h : listMax [(7 : ℚ), 7, 7] - listMin [(7 : ℚ), 7, 7] = 0 := by
    rw [hmax, hmin]; ring
  unfold rescale_to_range
  simp [h]

/-- C4 (amended): on a sequence whose observed minimum equals its observed
maximum, `rescale_to_range` raises no error and returns a sequence of the
same length every element of which is the `NaN` (undefined) sentinel. -/
theorem rescale_degenerate_returns_nan (a b : ℚ) (x : List ℚ)
    (h : listMin x = listMax x) :
    rescale_to_range a b x = x.map fun _ => none := by
  have hd : listMax x - listMin x = 0 := by rw [h]; ring
  unfold rescale_to_range
  simp [hd]

/-- Witness for C4 (amended): at `[7, 7, 7]` with `newMin = 0`,
`newMax = 100`. -/
theorem rescale_degenerate_returns_nan_witness :
    listMin [(7 : ℚ), 7, 7] = listMax [(7 : ℚ), 7, 7] ∧
    rescale_to_range 0 100 [(7 : ℚ), 7, 7] = ([(7 : ℚ), 7, 7]).map fun _ => none :=
  ⟨by decide, rescale_degenerate_returns_nan 0 100 [(7 : ℚ), 7, 7] (by decide)⟩

/-- C5: a sequence already spanning exactly `[newMin, newMax]` (with
`newMin ≠ newMax`) rescales to the identical sequence, element for
element. -/
theorem rescale_identity_on_exact_range (a b : ℚ) (x : List ℚ)
    (hmin : listMin x = a) (hmax : listMax x = b) (hab : a ≠ b) :
    rescale_to_range a b x = x.map some := by
  have hba : b - a ≠ 0 := sub_ne_zero.mpr (Ne.symm hab)
  have hd : listMax x - listMin x ≠ 0 := by rw [hmin, hmax]; exact hba
  unfold rescale_to_range
  refine List.map_congr_left fun xi _ => ?_
  rw [if_neg hd, hmin, hmax]
  refine congrArg some ?_
  rw [mul_comm, mul_div_assoc, div_self hba, mul_one]
  ring

/-- Witness for C5: `[5, 10, 15]` already spans `[5, 15]` exactly and is
returned unchanged. -/
theorem rescale_identity_on_exact_range_witness :
    rescale_to_range 5 15 [(5 : ℚ), 10, 15] = ([(5 : ℚ), 10, 15]).map some :=
  rescale_identity_on_exact_range 5 15 [(5 : ℚ), 10, 15] (by decide) (by decide)
    (by decide)

/-! ### The aggregation claims -/

/-- C6 counterexample: in the one-row table whose single row has a missing
group key, the group-by produces no group at all, so the row belongs to no
group and the union of the groups' rows misses it — the groups do not
partition the table. -/
theorem aggregate_groups_partition_counterexample :
    groupKeys [((none : Option String), some (1 : ℚ))] = [] ∧
    ((groupKeys [((none : Option String), some (1 : ℚ))]).map fun k =>
        (groupRows [((none : Option String), some (1 : ℚ))] k).length).sum
      ≠ ([((none : Option String), some (1 : ℚ))]).length := by
  decide

/-- C6 (amended): the groups produced by the group-by partition the rows of
the table whose group key is non-null: every such row belongs to exactly
one group, distinct groups are pairwise disjoint, a row with a null group
key belongs to no group, and the group sizes sum to the number of rows
with a non-null group key. -/
theorem aggregate_groups_partition {K : Type} [DecidableEq K]
    (t : List (Option K × Option ℚ)) :
    (∀ (i : ℕ) (hi : i < t.length) (k0 : K), (t.get ⟨i, hi⟩).1 = some k0 →
       ∃! k : K, k ∈ groupKeys t ∧ (t.get ⟨i, hi⟩).1 = some k) ∧
    (∀ k₁ k₂ : K, k₁ ≠ k₂ → ∀ r, r ∈ groupRows t k₁ → r ∉ groupRows t k₂) ∧
    (∀ r ∈ t, r.1 = none → ∀ k : K, r ∉ groupRows t k) ∧
    ((groupKeys t).map fun k => (groupRows t k).length).sum
      = (t.filter fun r => (r.1).isSome).length := by
  refine ⟨?_, ?_, ?_, ?_⟩
  · intro i hi k0 hk0
    refine ⟨k0, ⟨?_, hk0⟩, ?_⟩
    · exact List.mem_dedup.mpr
        (List.mem_filterMap.mpr ⟨t.get ⟨i, hi⟩, List.get_mem t i hi, hk0⟩)
    · intro y hy
      have hsome : some y = some k0 := hy.2.symm.trans hk0
      exact Option.some_inj.mp hsome
  · intro k₁ k₂ hne r hr1 hr2
    have h1 : r.1 = some k₁ := of_decide_eq_true (List.mem_filter.mp hr1).2
    have h2 : r.1 = some k₂ := of_decide_eq_true (List.mem_filter.mp hr2).2
    exact hne (Option.some_inj.mp (h1.symm.trans h2))
  · intro r _ hnull k hr
    have h1 : r.1 = some k := of_decide_eq_true (List.mem_filter.mp hr).2
    exact Option.noConfusion (hnull.symm.trans h1)
  · have hlen : ∀ k : K, (groupRows t k).length
        = t.countP fun r => decide (r.1 = some k) := by
      intro k
      exact (List.countP_eq_length_filter _ _).symm
    calc ((groupKeys t).map fun k => (groupRows t k).length).sum
        = ((groupKeys t).map fun k =>
            t.countP fun r => decide (r.1 = some k)).sum := by
          congr 1
          exact List.map_congr_left fun k _ => hlen k
      _ = (t.filter fun r => (r.1).isSome).length := by
          apply sum_countP_eq_length_of_isSome t Prod.fst (groupKeys t)
            (List.nodup_dedup _)
          intro r hr k hk
          exact List.mem_dedup.mpr (List.mem_filterMap.mpr ⟨r, hr, hk⟩)

/-- Witness for C6 (amended): the partition count at a concrete three-row
table with two countries and one missing group key. -/
theorem aggregate_groups_partition_witness :
    ((groupKeys [((some "X" : Option String), some (10 : ℚ)),
        (some "Y", some 12), (none, none)]).map
      fun k => (groupRows [((some "X" : Option String), some (10 : ℚ)),
        (some "Y", some 12), (none, none)] k).length).sum
      = (([((some "X" : Option String), some (10 : ℚ)),
        (some "Y", some 12), (none, none)]).filter fun r => (r.1).isSome).length :=
  (aggregate_groups_partition [((some "X" : Option String), some (10 : ℚ)),
    (some "Y", some 12), (none, none)]).2.2.2

/-- C7: for every group produced by the group-by whose count is positive,
the summary row satisfies `min ≤ mean ≤ max`. -/
theorem aggregate_min_le_mean_le_max {K : Type} [DecidableEq K]
    (t : List (Option K × Option ℚ)) (k : K) (hk : k ∈ groupKeys t)
    (hc : 0 < (get_stats (groupValues t k)).count) :
    ∃ mn mx me : ℚ,
      (get_stats (groupValues t k)).min = some mn ∧
      (get_stats (groupValues t k)).max = some mx ∧
      (get_stats (groupValues t k)).mean = some me ∧
      mn ≤ me ∧ me ≤ mx := by
  have hlen : 0 < (validValues (groupValues t k)).length := hc
  have hne : validValues (groupValues t k) ≠ [] := List.ne_nil_of_length_pos hlen
  refine ⟨listMin (validValues (groupValues t k)),
          listMax (validValues (groupValues t k)),
          (validValues (groupValues t k)).sum / ((validValues (groupValues t k)).length : ℚ),
          ?_, ?_, ?_, ?_, ?_⟩
  · simp [get_stats, hne]
  · simp [get_stats, hne]
  · simp [get_stats, hne]
  · have hq : (0 : ℚ) < ((validValues (groupValues t k)).length : ℚ) := by
      exact_mod_cast hlen
    rw [le_div_iff₀ hq]
    exact mul_length_le_sum _ _ fun y hy => listMin_le_of_mem hy
  · have hq : (0 : ℚ) < ((validValues (groupValues t k)).length : ℚ) := by
      exact_mod_cast hlen
    rw [div_le_iff₀ hq]
    exact sum_le_mul_length _ _ fun y hy => le_listMax_of_mem hy

/-- Witness for C7: the spec's concrete scenario, `Overall = [10, 12, 14]`
grouped entirely under the key `"X"`. -/
theorem aggregate_min_le_mean_le_max_witness :
    ∃ mn mx me : ℚ,
      (get_stats (groupValues [((some "X" : Option String), some (10 : ℚ)),
        (some "X", some 12), (some "X", some 14)] "X")).min = some mn ∧
      (get_stats (groupValues [((some "X" : Option String), some (10 : ℚ)),
        (some "X", some 12), (some "X", some 14)] "X")).max = some mx ∧
      (get_stats (groupValues [((some "X" : Option String), some (10 : ℚ)),
        (some "X", some 12), (some "X", some 14)] "X")).mean = some me ∧
      mn ≤ me ∧ me ≤ mx :=
  aggregate_min_le_mean_le_max [((some "X" : Option String), some (10 : ℚ)),
    (some "X", some 12), (some "X", some 14)] "X"
    (by decide) (by decide)

/-- C8 counterexample: the group of key `"X"` in a one-row table whose single
value cell is missing has exactly one row, yet its reported count is 0, not
1 as the claim requires of every single-row group. -/
theorem get_stats_single_null_counterexample :
    (groupValues [((some "X" : Option String), (none : Option ℚ))] "X").length = 1 ∧
    (get_stats (groupValues
      [((some "X" : Option String), (none : Option ℚ))] "X")).count ≠ 1 := by
  decide

/-- C8 (amended): a group with zero valid (non-null) values yields the
undefined sentinel for `mean` (and for `min` and `max`) with count 0 rather
than crashing; a group with exactly one row holding a non-null value has
`min = max = mean` and `count = 1`; a group whose single row is null has
`count = 0` and the sentinel `mean`. -/
theorem get_stats_edge_cases (g : List (Option ℚ)) (v : ℚ) :
    (validValues g = [] →
       (get_stats g).mean = none ∧ (get_stats g).min = none ∧
       (get_stats g).max = none ∧ (get_stats g).count = 0) ∧
    (g = [some v] →
       (get_stats g).min = some v ∧ (get_stats g).max = some v ∧
       (get_stats g).mean = some v ∧ (get_stats g).count = 1) ∧
    (g = [none] → (get_stats g).count = 0 ∧ (get_stats g).mean = none) := by
  refine ⟨?_, ?_, ?_⟩
  · intro h
    refine ⟨?_, ?_, ?_, ?_⟩ <;> simp [get_stats, h]
  · intro h
    subst h
    have hv : validValues [some v] = [v] := rfl
    refine ⟨?_, ?_, ?_, ?_⟩ <;> simp [get_stats, hv, listMin, listMax]
  · intro h
    subst h
    exact ⟨rfl, rfl⟩

/-- Witness for C8 (amended): a singleton non-null group has count 1, and a
group with no valid values has the sentinel mean. -/
theorem get_stats_edge_cases_witness :
    (get_stats [some (7 : ℚ)]).count = 1 ∧
    (get_stats ([none] : List (Option ℚ))).mean = none :=
  ⟨((get_stats_edge_cases [some 7] 7).2.1 rfl).2.2.2,
   ((get_stats_edge_cases [none] 7).2.2 rfl).2⟩

/-- C9: an aggregation request whose group-by or value column is missing
fails with `MissingColumnError`, one whose value column is non-numeric
fails with `TypeMismatchError`, and in every such case no result — in
particular no silent empty summary — is returned. -/
theorem aggregate_column_errors (t : Table) (g v : String) :
    (findCol t g = none →
       aggregate t g v = Except.error (AggError.MissingColumnError g)) ∧
    (findCol t g ≠ none → findCol t v = none →
       aggregate t g v = Except.error (AggError.MissingColumnError v)) ∧
    (∀ vc, findCol t g ≠ none → findCol t v = some vc → isNumericCol vc = false →
       aggregate t g v = Except.error (AggError.TypeMismatchError v)) ∧
    ((findCol t g = none ∨ findCol t v = none ∨
        (∃ vc, findCol t v = some vc ∧ isNumericCol vc = false)) →
       ∀ res, aggregate t g v ≠ Except.ok res) := by
  refine ⟨?_, ?_, ?_, ?_⟩
  · intro h
    simp [aggregate, h]
  · intro hg hv
    rcases hgc : findCol t g with _ | gcol
    · exact absurd hgc hg
    · simp [aggregate, hgc, hv]
  · intro vc hg hvc hnum
    rcases hgc : findCol t g with _ | gcol
    · exact absurd hgc hg
    · simp [aggregate, hgc, hvc, hnum]
  · intro hbad res
    rcases hgc : findCol t g with _ | gcol
    · simp [aggregate, hgc]
    · rcases hvc : findCol t v with _ | vcol
      · simp [aggregate, hgc, hvc]
      · rcases hbad with h | h | ⟨vc, hvc2, hnum⟩
        · rw [hgc] at h; cases h
        · rw [hvc] at h; cases h
        · rw [hvc] at hvc2
          injection hvc2 with he
          subst he
          simp [aggregate, hgc, hvc, hnum]

/-- Witness for C9: aggregating a table that lacks the `Overall` column
fails with `MissingColumnError "Overall"`. -/
theorem aggregate_column_errors_witness :
    aggregate [("Country", [Cell.str "UK"])] "Country" "Overall"
      = Except.error (AggError.MissingColumnError "Overall") :=
  (aggregate_column_errors [("Country", [Cell.str "UK"])] "Country" "Overall").2.1
    (by decide) (by decide)

/-- C10: the count reported by `get_stats` counts exactly the non-null
values of the group: it equals the number of non-null entries, and adding
the number of null entries recovers the group's row count. -/
theorem get_stats_count_non_null (g : List (Option ℚ)) :
    (get_stats g).count = (g.filter fun c => c.isSome).length ∧
    (get_stats g).count + (g.filter fun c => c.isNone).length = g.length := by
  induction g with
  | nil => exact ⟨rfl, rfl⟩
  | cons c g ih =>
      cases c with
      | none =>
          refine ⟨?_, ?_⟩ <;>
            simp only [get_stats, validValues, List.filterMap_cons_none,
              List.filter_cons, Option.isSome_none, Option.isNone_none] at ih ⊢ <;>
            simp at ih ⊢ <;> omega
      | some q =>
          refine ⟨?_, ?_⟩ <;>
            simp only [get_stats, validValues, List.filterMap_cons_some,
              List.filter_cons, Option.isSome_some, Option.isNone_some] at ih ⊢ <;>
            simp at ih ⊢ <;> omega

end Workshop
